import Mathlib

/-!
Verification of the difiew replicated key-value store.

This file shallowly embeds the core of the repository:
* `Store` (src/store/mod.rs): flat map + sparse Merkle tree, command execution;
* `MajorityTracker` (src/node/majority_tracker/mod.rs): per-peer latest
  signature, plurality root;
* the `ShareSignature` branch of `Node::handle_node_message` (src/node/mod.rs).

Modelling conventions:
* Rust `HashMap<String, _>` is an unordered finite map; it is embedded as its
  canonical form, an association list strictly sorted by key (for the store)
  or an insertion-ordered duplicate-free association list (for the tracker,
  where no cross-state canonicality is needed).
* SHA-256 is a collision-resistant hash (spec §3); it is idealised as an
  injective function on strings, here the identity.
* The `monotree` dependency is not part of the repository.  It is modelled
  from the spec: a sparse Merkle tree whose root is a deterministic function
  of its contents, `none` iff the tree is empty, with roots equal iff
  contents are equal (spec glossary).  The canonical model takes the root to
  be the sorted list of (key-hash, value-hash) pairs.  The interface the code
  programs against is fallible (`Result` in Rust, spec §7 `Store.Tree`), so
  the store is parameterised by a `TreeBackend`; the canonical backend
  `mtree` never fails, and a failing backend exhibits the error paths.
-/

namespace Difiew

/-- `StoreError` from src/store/error.rs. -/
inductive StoreError where
  | MonotreeError (msg : String)
  | RegexError (msg : String)
deriving DecidableEq, Repr

/-- A Merkle root.  Modelled from the spec: a root is an injective 32-byte
fingerprint of the tree contents ("Equal iff contents equal", glossary), so it
is represented by the canonical (sorted) contents themselves. -/
abbrev Root := List (String × String)

/-- Idealised SHA-256 on strings: the spec assumes collision resistance
(spec §3), so the digest function is modelled as injective, here the
identity. -/
def sha256 (s : String) : String := s

/-- Strict lexicographic order on character lists, used to fix the canonical
form of a `HashMap` (which is unordered in Rust, so any total order will
do). -/
def charsLt : List Char → List Char → Bool
  | _, [] => false
  | [], _ :: _ => true
  | a :: as, b :: bs => if a = b then charsLt as bs else decide (a.toNat < b.toNat)

/-- Strict lexicographic order on strings. -/
def strLt (a b : String) : Bool := charsLt a.data b.data

/-- Insert or overwrite a binding in an association list strictly sorted by
key (canonical form of a Rust `HashMap`). -/
def alInsert (k v : String) : List (String × String) → List (String × String)
  | [] => [(k, v)]
  | (k', v') :: t =>
    if strLt k k' then (k, v) :: (k', v') :: t
    else if k = k' then (k, v) :: t
    else (k', v') :: alInsert k v t

/-- Remove the binding for a key from an association list. -/
def alRemove (k : String) : List (String × String) → List (String × String)
  | [] => []
  | (k', v') :: t => if k = k' then t else (k', v') :: alRemove k t

/-- Look up a key in an association list. -/
def alLookup (k : String) : List (String × String) → Option String
  | [] => none
  | (k', v') :: t => if k = k' then some v' else alLookup k t

/-- Whether a key is bound in an association list. -/
def containsKey (k : String) (m : List (String × String)) : Bool :=
  (alLookup k m).isSome

/-- The association list is strictly sorted by key (so keys are
duplicate-free): the canonical representation of a Rust `HashMap`. -/
def keySorted : List (String × String) → Bool
  | [] => true
  | [_] => true
  | a :: b :: t => strLt a.1 b.1 && keySorted (b :: t)

/-- Root of the canonical Merkle-tree model: `none` iff the tree is empty
(spec §3), otherwise the injective fingerprint of the contents. -/
def rootOf (t : List (String × String)) : Option Root :=
  if t = [] then none else some t

/-- The interface of the Merkle-tree layer as used by src/store/mod.rs: the
`monotree` operations take the current root and return the new root, and are
fallible (`Result` in Rust; error kind `Store.Tree` in spec §7). -/
structure TreeBackend where
  T : Type
  dflt : T
  insert : T → Option Root → String → String → Except StoreError (Option Root × T)
  remove : T → Option Root → String → Except StoreError (Option Root × T)

/-- Canonical Merkle-tree backend, modelled from the spec: deterministic root
as a pure function of the contents; never fails. -/
def mtree : TreeBackend where
  T := List (String × String)
  dflt := []
  insert t _ kh vh :=
    let t' := alInsert kh vh t
    .ok (rootOf t', t')
  remove t _ kh :=
    let t' := alRemove kh t
    .ok (rootOf t', t')

/-- `StoreCommand` from src/store/command.rs. -/
inductive StoreCommand where
  | DEL (keys : List String)
  | EXISTS (keys : List String)
  | GET (key : String)
  | KEYS (pattern : String)
  | SET (key value : String)
deriving DecidableEq, Repr

/-- `StoreCommandResult` from src/store/result.rs. -/
inductive StoreCommandResult where
  | DEL (payload : Nat)
  | EXISTS (payload : Nat)
  | GET (payload : Option String)
  | KEYS (payload : List String)
  | SET (payload : Bool)
  | UNDEFINED (payload : String)
deriving DecidableEq, Repr

/-- `Store` from src/store/mod.rs, generic in the Merkle-tree backend. -/
structure StoreG (B : TreeBackend) where
  root : Option Root
  monotree : B.T
  main_store : List (String × String)

/-- `Store::new`. -/
def StoreG.new (B : TreeBackend) : StoreG B :=
  { root := none, monotree := B.dflt, main_store := [] }

/-- `Store::set` (src/store/mod.rs lines 94–105).  Mirrors the source: the
flat map is mutated first, then the tree is updated; a tree error propagates
(`?`) with the map mutation left in place, since `set` takes `&mut self`. -/
def StoreG.set {B : TreeBackend} (s : StoreG B) (key value : String) :
    Except StoreError Bool × StoreG B :=
  let s := { s with main_store := alInsert key value s.main_store }
  match B.insert s.monotree s.root (sha256 key) (sha256 value) with
  | .error e => (.error e, s)
  | .ok (r, t) => (.ok true, { s with root := r, monotree := t })

/-- Loop body of `Store::del` (src/store/mod.rs lines 53–66): iterate over the
keys in order, remove each present key from the map and then from the tree,
count removals; a tree error propagates with the map removal in place. -/
def StoreG.delGo {B : TreeBackend} (s : StoreG B) :
    List String → Nat → Except StoreError Nat × StoreG B
  | [], removed => (.ok removed, s)
  | key :: rest, removed =>
    if containsKey key s.main_store then
      let s := { s with main_store := alRemove key s.main_store }
      match B.remove s.monotree s.root (sha256 key) with
      | .error e => (.error e, s)
      | .ok (r, t) =>
        StoreG.delGo { s with root := r, monotree := t } rest (removed + 1)
    else
      StoreG.delGo s rest removed

/-- `Store::del`. -/
def StoreG.del {B : TreeBackend} (s : StoreG B) (keys : List String) :
    Except StoreError Nat × StoreG B :=
  StoreG.delGo s keys 0

/-- `Store::exists` (src/store/mod.rs lines 68–72): count of supplied keys
present in the flat map, each list entry counted separately.  (The source
name `exists` is a reserved word in Lean.) -/
def StoreG.existsCount {B : TreeBackend} (s : StoreG B) (keys : List String) : Nat :=
  (keys.filter (fun k => containsKey k s.main_store)).length

/-- `Store::get`. -/
def StoreG.get {B : TreeBackend} (s : StoreG B) (key : String) : Option String :=
  alLookup key s.main_store

/-- `Store::reveal_root`. -/
def StoreG.reveal_root {B : TreeBackend} (s : StoreG B) : Option Root :=
  s.root

/-- `Store::get_main_store`: a deep copy of the flat map. -/
def StoreG.get_main_store {B : TreeBackend} (s : StoreG B) : List (String × String) :=
  s.main_store

/-! ### Regex engine

The `regex` crate is not part of the repository; it is modelled from the spec
(§4.1: treat `*` as wildcard `.*`, match the full key against `^…$`, invalid
regex yields `RegexError`).  The model supports the dialect fragment the
store's patterns can reach: literal characters, `.` (any character), postfix
`*` (zero or more), grouping `(…)` and alternation `|`; everything else is a
literal.  Compilation of a malformed pattern (unclosed or unopened group,
dangling quantifier) fails, as in the crate.  Matching is by Brzozowski
derivatives; wrapping the pattern in `^…$` and searching, as the source does,
equals full-string matching of the body, which is how it is modelled. -/

/-- Regular-expression abstract syntax. -/
inductive Rx where
  | emp
  | eps
  | chr (c : Char)
  | any
  | alt (a b : Rx)
  | cat (a b : Rx)
  | star (a : Rx)
deriving DecidableEq, Repr

/-- Whether a regex accepts the empty string. -/
def Rx.nullable : Rx → Bool
  | .emp => false
  | .eps => true
  | .chr _ => false
  | .any => false
  | .alt a b => a.nullable || b.nullable
  | .cat a b => a.nullable && b.nullable
  | .star _ => true

/-- Brzozowski derivative of a regex by one character. -/
def Rx.deriv : Rx → Char → Rx
  | .emp, _ => .emp
  | .eps, _ => .emp
  | .chr c, x => if x = c then .eps else .emp
  | .any, _ => .eps
  | .alt a b, x => .alt (a.deriv x) (b.deriv x)
  | .cat a b, x =>
    if a.nullable then .alt (.cat (a.deriv x) b) (b.deriv x)
    else .cat (a.deriv x) b
  | .star a, x => .cat (a.deriv x) (.star a)

/-- Full-string matching: fold the derivative over the characters and test
nullability. -/
def Rx.matchFull (r : Rx) (s : String) : Bool :=
  (s.data.foldl Rx.deriv r).nullable

mutual

/-- Recursive-descent parser for the regex dialect: alternation level.
The fuel argument only bounds recursion depth; `rxCompile` supplies enough
for any input. -/
def rxAlt : Nat → List Char → Except String (Rx × List Char)
  | 0, _ => .error "regex too deep"
  | fuel + 1, cs => do
    let (r, rest) ← rxCat fuel cs
    match rest with
    | '|' :: rest2 => do
      let (r2, rest3) ← rxAlt fuel rest2
      pure (Rx.alt r r2, rest3)
    | _ => pure (r, rest)

/-- Concatenation level of the parser. -/
def rxCat : Nat → List Char → Except String (Rx × List Char)
  | 0, _ => .error "regex too deep"
  | fuel + 1, cs =>
    match cs with
    | [] => pure (Rx.eps, [])
    | ')' :: _ => pure (Rx.eps, cs)
    | '|' :: _ => pure (Rx.eps, cs)
    | '*' :: _ => .error "repetition operator missing expression"
    | _ => do
      let (r1, rest) ← rxPost fuel cs
      let (r2, rest2) ← rxCat fuel rest
      pure (Rx.cat r1 r2, rest2)

/-- Postfix `*` level of the parser. -/
def rxPost : Nat → List Char → Except String (Rx × List Char)
  | 0, _ => .error "regex too deep"
  | fuel + 1, cs => do
    let (r, rest) ← rxAtom fuel cs
    match rest with
    | '*' :: '*' :: _ => .error "double repetition"
    | '*' :: rest2 => pure (Rx.star r, rest2)
    | _ => pure (r, rest)

/-- Atom level of the parser: group, any-char dot, or literal. -/
def rxAtom : Nat → List Char → Except String (Rx × List Char)
  | 0, _ => .error "regex too deep"
  | fuel + 1, cs =>
    match cs with
    | [] => .error "unexpected end of regex"
    | '(' :: rest => do
      let (r, rest2) ← rxAlt fuel rest
      match rest2 with
      | ')' :: rest3 => pure (r, rest3)
      | _ => .error "unclosed group"
    | ')' :: _ => .error "unopened group"
    | '*' :: _ => .error "repetition operator missing expression"
    | '.' :: rest => pure (Rx.any, rest)
    | c :: rest => pure (Rx.chr c, rest)

end

/-- Compile a regex body (the part between the `^` and `$` anchors). -/
def rxCompile (pattern : String) : Except String Rx :=
  match rxAlt (4 * pattern.data.length + 8) pattern.data with
  | .ok (r, []) => .ok r
  | .ok (_, _ :: _) => .error "unopened group"
  | .error e => .error e

/-- `pattern.replace("*", ".*")` on the character list (the needle is the
single character `*`). -/
def replaceStarAux : List Char → List Char
  | [] => []
  | '*' :: t => '.' :: '*' :: replaceStarAux t
  | c :: t => c :: replaceStarAux t

/-- `pattern.replace("*", ".*")` from src/store/mod.rs line 83. -/
def replaceStar (p : String) : String :=
  ⟨replaceStarAux p.data⟩

/-- `Store::keys` (src/store/mod.rs lines 78–92): `"*"` fast path returns all
keys; otherwise every `*` is replaced by `.*`, the result is compiled
(anchored `^…$` in the source, i.e. full match) and the keys are filtered by
the regex.  A compile failure becomes `StoreError::RegexError`. -/
def StoreG.keys {B : TreeBackend} (s : StoreG B) (pattern : String) :
    Except StoreError (List String) :=
  if pattern = "*" then
    .ok (s.main_store.map Prod.fst)
  else
    match rxCompile (replaceStar pattern) with
    | .error e => .error (StoreError.RegexError e)
    | .ok re => .ok ((s.main_store.map Prod.fst).filter (fun k => re.matchFull k))

/-- `Store::execute` (src/store/mod.rs lines 27–51): dispatch on the command
variant; a success is wrapped in the matching `StoreCommandResult`, an error
propagates unchanged (the `?` operator, rendered as `Except.map`) with
whatever state the sub-operation left behind (`&mut self` in the source). -/
def StoreG.execute {B : TreeBackend} (s : StoreG B) :
    StoreCommand → Except StoreError StoreCommandResult × StoreG B
  | .DEL keys =>
    let r := StoreG.del s keys
    (r.1.map StoreCommandResult.DEL, r.2)
  | .EXISTS keys => (.ok (.EXISTS (s.existsCount keys)), s)
  | .GET key => (.ok (.GET (s.get key)), s)
  | .KEYS pattern => ((s.keys pattern).map StoreCommandResult.KEYS, s)
  | .SET key value =>
    let r := StoreG.set s key value
    (r.1.map StoreCommandResult.SET, r.2)

/-- Rebuild loop of `Store::update_full_store` (src/store/mod.rs lines
122–126): `self.set(key, value)?` for each entry of the new map, in order. -/
def StoreG.rebuild {B : TreeBackend} (s : StoreG B) :
    List (String × String) → Except StoreError Unit × StoreG B
  | [] => (.ok (), s)
  | (k, v) :: rest =>
    match StoreG.set s k v with
    | (.ok _, s') => StoreG.rebuild s' rest
    | (.error e, s') => (.error e, s')

/-- `Store::update_full_store` (src/store/mod.rs lines 115–127): replace the
flat map, reset the tree and root, then re-insert every entry. -/
def StoreG.update_full_store {B : TreeBackend} (_self : StoreG B)
    (main_store : List (String × String)) : Except StoreError Unit × StoreG B :=
  let s : StoreG B := { root := none, monotree := B.dflt, main_store := main_store }
  StoreG.rebuild s main_store

/-- The store as instantiated by the repository (in-memory `monotree`). -/
abbrev Store := StoreG mtree

/-- `Store::new` at the canonical backend. -/
def Store.new : Store := StoreG.new mtree

/-- A tree backend every operation of which fails: the error case the
`monotree` interface (and spec §7's `Store.Tree` error kind) allows.  Used to
exhibit the store's behaviour on the tree-error path. -/
def failTree : TreeBackend where
  T := Unit
  dflt := ()
  insert _ _ _ _ := .error (StoreError.MonotreeError "tree failure")
  remove _ _ _ := .error (StoreError.MonotreeError "tree failure")

/-! ### MajorityTracker (src/node/majority_tracker/mod.rs) -/

/-- `Signature`: a node's advertised root and the wall-clock millis it was
produced at. -/
structure Signature where
  root : Option Root
  local_timestamp : Nat
deriving DecidableEq, Repr

/-- Insert or replace a binding in an insertion-ordered duplicate-free
association list (the tracker's `HashMap<String, Signature>`). -/
def hmInsert (k : String) (v : Signature) :
    List (String × Signature) → List (String × Signature)
  | [] => [(k, v)]
  | (k', v') :: t => if k = k' then (k, v) :: t else (k', v') :: hmInsert k v t

/-- Look up a peer's stored signature. -/
def hmLookup (k : String) : List (String × Signature) → Option Signature
  | [] => none
  | (k', v') :: t => if k = k' then some v' else hmLookup k t

/-- `MajorityTracker`: per-peer latest signature. -/
structure MajorityTracker where
  history : List (String × Signature)
deriving DecidableEq, Repr

/-- `MajorityTracker::new`. -/
def MajorityTracker.new : MajorityTracker := ⟨[]⟩

/-- `MajorityTracker::update_signature` (lines 21–29): insert when absent;
replace only when the new timestamp is strictly greater. -/
def MajorityTracker.update_signature (t : MajorityTracker) (peer_id : String)
    (new_signature : Signature) : MajorityTracker :=
  match hmLookup peer_id t.history with
  | some old =>
    if old.local_timestamp < new_signature.local_timestamp then
      ⟨hmInsert peer_id new_signature t.history⟩
    else t
  | none => ⟨hmInsert peer_id new_signature t.history⟩

/-- Bump the count of a root in a frequency association list
(`*freqs.entry(root).or_insert(0) += 1`). -/
def bumpFreq (r : Root) : List (Root × Nat) → List (Root × Nat)
  | [] => [(r, 1)]
  | (r', n) :: t => if r = r' then (r', n + 1) :: t else (r', n) :: bumpFreq r t

/-- The frequency table built by `most_common_root` (lines 32–38): one count
per distinct non-`none` root; signatures with `root == None` do not vote. -/
def rootFreqs : List (String × Signature) → List (Root × Nat)
  | [] => []
  | e :: t =>
    match e.2.root with
    | some r => bumpFreq r (rootFreqs t)
    | none => rootFreqs t

/-- `Iterator::max_by_key` over the frequency table: an entry of maximal
count (the tie among equal counts is broken arbitrarily in the source, since
`HashMap` iteration order is arbitrary; the model makes a fixed choice). -/
def maxByCount : List (Root × Nat) → Option (Root × Nat)
  | [] => none
  | (r, n) :: t =>
    match maxByCount t with
    | none => some (r, n)
    | some (r', n') => if n ≤ n' then some (r', n') else some (r, n)

/-- `MajorityTracker::most_common_root` (lines 31–42). -/
def MajorityTracker.most_common_root (t : MajorityTracker) : Option Root :=
  (maxByCount (rootFreqs t.history)).map Prod.fst

/-- `MajorityTracker::truthful_majority` (lines 44–55): the peers whose
latest signature carries the plurality root, or `none` when no root voted. -/
def MajorityTracker.truthful_majority (t : MajorityTracker) : Option (List String) :=
  match t.most_common_root with
  | some mc =>
    some ((t.history.filter (fun e => e.2.root = some mc)).map Prod.fst)
  | none => none

/-! ### Node (src/node/mod.rs), `ShareSignature` branch -/

/-- `RepairRequestParams` from src/protocol/mod.rs. -/
structure RepairRequestParams where
  src_id : String
  dst_id : String
deriving DecidableEq, Repr

/-- The node state relevant to message handling: identity, local store and
tracker.  The transport handle and codec config are out of scope (spec §1). -/
structure Node where
  peer_id : String
  storage : Store
  tracker : MajorityTracker

/-- The `NodeMessage::ShareSignature` branch of `Node::handle_node_message`
(src/node/mod.rs lines 95–120): update the tracker with the incoming
signature, then — when the local root differs from the incoming root and the
(updated) tracker yields a majority — broadcast one `RepairRequest` with
`src_id = self`, `dst_id = peer` per majority peer.  The local root is read
through `generate_signature`, i.e. `reveal_root`; timestamps only populate
metadata and are modelled as always available.  Returns the new node state
and the list of broadcast requests. -/
def Node.handleShareSignature (n : Node) (src_id : String) (sgn : Signature) :
    Node × List RepairRequestParams :=
  let tracker := n.tracker.update_signature src_id sgn
  let n' : Node := { n with tracker := tracker }
  if n'.storage.reveal_root ≠ sgn.root then
    match tracker.truthful_majority with
    | some majority =>
      (n', majority.map (fun peer_id => ⟨n'.peer_id, peer_id⟩))
    | none => (n', [])
  else
    (n', [])

/-! ### Store invariant and reachability -/

/-- Consistency of a canonical-backend store: the flat map is in canonical
(sorted) form, the tree holds exactly the digests of the map (with the
idealised identity digest, the map itself), and the root is the tree's
fingerprint. -/
def Inv (s : Store) : Prop :=
  keySorted s.main_store = true ∧
  s.monotree = s.main_store ∧
  s.root = rootOf s.main_store

/-- Stores reachable from the empty store by successful `execute` and
`update_full_store` calls.  The map handed to `update_full_store` comes from
a Rust `HashMap` (a peer's `get_main_store`), hence is canonical. -/
inductive Reachable : Store → Prop where
  | base : Reachable Store.new
  | exec (s : Store) (cmd : StoreCommand) (res : StoreCommandResult) (s' : Store) :
      Reachable s → StoreG.execute s cmd = (.ok res, s') → Reachable s'
  | update (s : Store) (m : List (String × String)) (s' : Store) :
      Reachable s → keySorted m = true →
      StoreG.update_full_store s m = (.ok (), s') → Reachable s'

/-- Reference recursion for `DEL`: processes the keys in order, removes each
key present at its processing point and counts it, skips absent keys. -/
def delModel : List (String × String) → List String → Nat × List (String × String)
  | m, [] => (0, m)
  | m, k :: rest =>
    if containsKey k m then
      let p := delModel (alRemove k m) rest
      (p.1 + 1, p.2)
    else
      delModel m rest

/-- Apply a sequence of `update_signature` calls to a tracker (its
lifetime). -/
def applyUpdates (t : MajorityTracker) : List (String × Signature) → MajorityTracker
  | [] => t
  | (p, sg) :: rest => applyUpdates (t.update_signature p sg) rest

/-- The count recorded for a root in a frequency table (0 if absent). -/
def freqCount (r : Root) : List (Root × Nat) → Nat
  | [] => 0
  | (r', n) :: t => if r = r' then n else freqCount r t

/-- The number of tracked peers whose latest signature carries the given
root. -/
def countRoot (r : Root) (h : List (String × Signature)) : Nat :=
  (h.filter (fun e => e.2.root = some r)).length

/-! ## Order lemmas for the canonical key order -/

theorem charEq_of_not_lt {a b : Char} (h1 : ¬ a.toNat < b.toNat)
    (h2 : ¬ b.toNat < a.toNat) : a = b :=
  Char.eq_of_val_eq (UInt32.ext (Nat.le_antisymm (Nat.le_of_not_lt h2) (Nat.le_of_not_lt h1)))

theorem charsLt_irrefl : ∀ l : List Char, charsLt l l = false
  | [] => rfl
  | a :: as => by simp [charsLt, charsLt_irrefl as]

theorem charsLt_trans : ∀ (a b c : List Char),
    charsLt a b = true → charsLt b c = true → charsLt a c = true
  | _, b, [], _, h2 => by cases b <;> simp [charsLt] at h2
  | [], b, _ :: _, _, _ => by simp [charsLt]
  | _ :: _, [], _ :: _, h1, _ => by simp [charsLt] at h1
  | a :: as, b :: bs, c :: cs, h1, h2 => by
    simp only [charsLt] at h1 h2 ⊢
    by_cases hab : a = b
    · subst hab
      by_cases hbc : a = c
      · subst hbc
        simp only [if_pos rfl] at h1 h2 ⊢
        exact charsLt_trans as bs cs h1 h2
      · simpa [hbc] using h2
    · by_cases hbc : b = c
      · subst hbc; simpa [hab] using h1
      · simp only [if_neg hab, decide_eq_true_eq] at h1
        simp only [if_neg hbc, decide_eq_true_eq] at h2
        have hac : a.toNat < c.toNat := Nat.lt_trans h1 h2
        have hne : a ≠ c := fun h => by subst h; omega
        simp [hne, hac]

theorem charsLt_conn : ∀ (a b : List Char),
    charsLt a b = false → charsLt b a = false → a = b
  | [], [], _, _ => rfl
  | [], _ :: _, h1, _ => by simp [charsLt] at h1
  | _ :: _, [], _, h2 => by simp [charsLt] at h2
  | a :: as, b :: bs, h1, h2 => by
    simp only [charsLt] at h1 h2
    by_cases hab : a = b
    · subst hab
      simp only [if_pos rfl] at h1 h2
      exact congrArg (List.cons a) (charsLt_conn as bs h1 h2)
    · simp only [if_neg hab, decide_eq_false_iff_not] at h1
      simp only [if_neg (fun h : b = a => hab h.symm), decide_eq_false_iff_not] at h2
      exact absurd (charEq_of_not_lt h1 h2) hab

theorem strLt_irrefl (a : String) : strLt a a = false :=
  charsLt_irrefl a.data

theorem strLt_trans {a b c : String} (h1 : strLt a b = true) (h2 : strLt b c = true) :
    strLt a c = true :=
  charsLt_trans a.data b.data c.data h1 h2

theorem strLt_conn {a b : String} (h1 : strLt a b = false) (h2 : strLt b a = false) :
    a = b := by
  cases a; cases b
  exact congrArg String.mk (charsLt_conn _ _ h1 h2)

theorem strLt_asymm {a b : String} (h : strLt a b = true) : strLt b a = false := by
  cases h2 : strLt b a
  · rfl
  · have := strLt_trans h h2
    rw [strLt_irrefl a] at this
    exact absurd this (by simp)

theorem strLt_of_not_of_ne {k k' : String} (h1 : strLt k k' = false) (h2 : k ≠ k') :
    strLt k' k = true := by
  cases h3 : strLt k' k
  · exact absurd (strLt_conn h1 h3) h2
  · rfl

theorem ne_of_strLt {a b : String} (h : strLt a b = true) : a ≠ b := by
  intro he; subst he
  rw [strLt_irrefl a] at h
  exact absurd h (by simp)

/-! ## Canonical association-list lemmas -/

theorem keySorted_pairwise : ∀ (l : List (String × String)),
    keySorted l = true ↔ l.Pairwise (fun a b => strLt a.1 b.1 = true)
  | [] => by simp [keySorted]
  | [a] => by simp [keySorted]
  | a :: b :: t => by
    have ih := keySorted_pairwise (b :: t)
    simp only [keySorted, Bool.and_eq_true]
    constructor
    · rintro ⟨hab, hs⟩
      have hp := ih.mp hs
      refine List.Pairwise.cons ?_ hp
      intro e he
      rcases List.mem_cons.mp he with rfl | he'
      · exact hab
      · exact strLt_trans hab ((List.pairwise_cons.mp hp).1 e he')
    · intro hp
      rcases List.pairwise_cons.mp hp with ⟨hall, hp'⟩
      exact ⟨hall b (by simp), ih.mpr hp'⟩

theorem mem_alInsert {e : String × String} {k v : String} :
    ∀ {m : List (String × String)}, e ∈ alInsert k v m → e = (k, v) ∨ e ∈ m := by
  intro m
  induction m with
  | nil => intro h; simpa [alInsert] using h
  | cons a t ih =>
    obtain ⟨k', v'⟩ := a
    intro h
    simp only [alInsert] at h
    by_cases h1 : strLt k k' = true
    · simp only [if_pos h1, List.mem_cons] at h
      rcases h with rfl | h
      · exact Or.inl rfl
      · exact Or.inr (List.mem_cons.mpr h)
    · simp only [if_neg h1] at h
      by_cases h2 : k = k'
      · simp only [if_pos h2, List.mem_cons] at h
        rcases h with rfl | h
        · exact Or.inl rfl
        · exact Or.inr (List.mem_cons_of_mem _ h)
      · simp only [if_neg h2, List.mem_cons] at h
        rcases h with rfl | h
        · exact Or.inr (List.mem_cons_self _ _)
        · rcases ih h with h | h
          · exact Or.inl h
          · exact Or.inr (List.mem_cons_of_mem _ h)

theorem keySorted_alInsert {k v : String} :
    ∀ {m : List (String × String)}, keySorted m = true → keySorted (alInsert k v m) = true := by
  intro m
  induction m with
  | nil => intro _; rfl
  | cons a t ih =>
    obtain ⟨k', v'⟩ := a
    intro hs
    have hp := (keySorted_pairwise _).mp hs
    rcases List.pairwise_cons.mp hp with ⟨hall, hp'⟩
    have hst : keySorted t = true := (keySorted_pairwise t).mpr hp'
    simp only [alInsert]
    by_cases h1 : strLt k k' = true
    · simp only [if_pos h1]
      refine (keySorted_pairwise _).mpr (List.pairwise_cons.mpr ⟨?_, hp⟩)
      intro e he
      rcases List.mem_cons.mp he with rfl | he'
      · exact h1
      · exact strLt_trans h1 (hall e he')
    · simp only [if_neg h1]
      by_cases h2 : k = k'
      · simp only [if_pos h2]
        refine (keySorted_pairwise _).mpr (List.pairwise_cons.mpr ⟨?_, hp'⟩)
        intro e he
        subst h2
        exact hall e he
      · simp only [if_neg h2]
        refine (keySorted_pairwise _).mpr (List.pairwise_cons.mpr ⟨?_, (keySorted_pairwise _).mp (ih hst)⟩)
        intro e he
        rcases mem_alInsert he with rfl | he'
        · exact strLt_of_not_of_ne (by simpa using h1) h2
        · exact hall e he'

theorem alLookup_eq_none {k : String} :
    ∀ {m : List (String × String)}, (∀ e ∈ m, e.1 ≠ k) → alLookup k m = none := by
  intro m
  induction m with
  | nil => intro _; rfl
  | cons a t ih =>
    obtain ⟨k', v'⟩ := a
    intro h
    have hk : k' ≠ k := h (k', v') (by simp)
    simp only [alLookup, if_neg (fun he : k = k' => hk he.symm)]
    exact ih (fun e he => h e (List.mem_cons_of_mem _ he))

theorem alLookup_mem {k v : String} :
    ∀ {m : List (String × String)}, alLookup k m = some v → (k, v) ∈ m := by
  intro m
  induction m with
  | nil => intro h; simp [alLookup] at h
  | cons a t ih =>
    obtain ⟨k', v'⟩ := a
    intro h
    simp only [alLookup] at h
    by_cases he : k = k'
    · simp only [if_pos he] at h
      subst he
      injection h with h
      subst h
      exact List.mem_cons_self _ _
    · simp only [if_neg he] at h
      exact List.mem_cons_of_mem _ (ih h)

theorem mem_alLookup {k v : String} {m : List (String × String)}
    (hs : keySorted m = true) (h : (k, v) ∈ m) : alLookup k m = some v := by
  induction m with
  | nil => simp at h
  | cons a t ih =>
    obtain ⟨k', v'⟩ := a
    have hp := (keySorted_pairwise _).mp hs
    rcases List.pairwise_cons.mp hp with ⟨hall, hp'⟩
    rcases List.mem_cons.mp h with he | he
    · injection he with he1 he2
      subst he1; subst he2
      simp [alLookup]
    · have hne : k ≠ k' := by
        intro heq; subst heq
        exact absurd (hall _ he) (by simp [strLt_irrefl])
      simp only [alLookup, if_neg hne]
      exact ih ((keySorted_pairwise t).mpr hp') he

theorem alInsert_lookup_eq {k v : String} :
    ∀ {m : List (String × String)}, keySorted m = true → alLookup k m = some v →
      alInsert k v m = m := by
  intro m
  induction m with
  | nil => intro _ h; simp [alLookup] at h
  | cons a t ih =>
    obtain ⟨k', v'⟩ := a
    intro hs h
    have hp := (keySorted_pairwise _).mp hs
    rcases List.pairwise_cons.mp hp with ⟨hall, hp'⟩
    simp only [alLookup] at h
    by_cases he : k = k'
    · simp only [if_pos he] at h
      injection h with h
      subst he; subst h
      simp [alInsert, strLt_irrefl]
    · simp only [if_neg he] at h
      have hmem := alLookup_mem h
      have hgt : strLt k' k = true := hall _ hmem
      have hlt : strLt k k' = false := strLt_asymm hgt
      simp only [alInsert, hlt, Bool.false_eq_true, if_false, if_neg he]
      rw [ih ((keySorted_pairwise t).mpr hp') h]

theorem alInsert_append {k v : String} :
    ∀ {t : List (String × String)}, (∀ e ∈ t, strLt e.1 k = true) →
      alInsert k v t = t ++ [(k, v)] := by
  intro t
  induction t with
  | nil => intro _; rfl
  | cons a t ih =>
    obtain ⟨k', v'⟩ := a
    intro h
    have hlt : strLt k' k = true := h (k', v') (by simp)
    have hlt' : strLt k k' = false := strLt_asymm hlt
    have hne : ¬ k = k' := fun he => by subst he; simp [strLt_irrefl] at hlt
    simp only [alInsert, hlt', Bool.false_eq_true, if_false, if_neg hne]
    rw [ih (fun e he => h e (List.mem_cons_of_mem _ he))]
    rfl

theorem mem_alRemove {k : String} {e : String × String} :
    ∀ {m : List (String × String)}, e ∈ alRemove k m → e ∈ m := by
  intro m
  induction m with
  | nil => intro h; simp [alRemove] at h
  | cons a t ih =>
    obtain ⟨k', v'⟩ := a
    intro h
    simp only [alRemove] at h
    by_cases he : k = k'
    · simp only [if_pos he] at h
      exact List.mem_cons_of_mem _ h
    · simp only [if_neg he, List.mem_cons] at h
      rcases h with rfl | h
      · simp
      · exact List.mem_cons_of_mem _ (ih h)

theorem keySorted_alRemove {k : String} :
    ∀ {m : List (String × String)}, keySorted m = true → keySorted (alRemove k m) = true := by
  intro m
  induction m with
  | nil => intro _; rfl
  | cons a t ih =>
    obtain ⟨k', v'⟩ := a
    intro hs
    have hp := (keySorted_pairwise _).mp hs
    rcases List.pairwise_cons.mp hp with ⟨hall, hp'⟩
    have hst : keySorted t = true := (keySorted_pairwise t).mpr hp'
    simp only [alRemove]
    by_cases he : k = k'
    · simp only [if_pos he]
      exact hst
    · simp only [if_neg he]
      refine (keySorted_pairwise _).mpr (List.pairwise_cons.mpr ⟨?_, (keySorted_pairwise _).mp (ih hst)⟩)
      intro e hmem
      exact hall e (mem_alRemove hmem)

theorem alLookup_alRemove_self {k : String} :
    ∀ {m : List (String × String)}, keySorted m = true → alLookup k (alRemove k m) = none := by
  intro m
  induction m with
  | nil => intro _; rfl
  | cons a t ih =>
    obtain ⟨k', v'⟩ := a
    intro hs
    have hp := (keySorted_pairwise _).mp hs
    rcases List.pairwise_cons.mp hp with ⟨hall, hp'⟩
    have hst : keySorted t = true := (keySorted_pairwise t).mpr hp'
    simp only [alRemove]
    by_cases he : k = k'
    · simp only [if_pos he]
      subst he
      exact alLookup_eq_none (fun e hmem => (ne_of_strLt (hall e hmem)).symm)
    · simp only [if_neg he, alLookup, if_neg he]
      exact ih hst

/-! ## Store lemmas at the canonical backend -/

theorem set_mtree_eq (s : Store) (k v : String) :
    StoreG.set s k v =
      (.ok true,
       { root := rootOf (alInsert k v s.monotree),
         monotree := alInsert k v s.monotree,
         main_store := alInsert k v s.main_store }) := rfl

theorem Inv_new : Inv Store.new := ⟨rfl, rfl, rfl⟩

theorem Inv_set {s : Store} (h : Inv s) (k v : String) :
    (StoreG.set s k v).1 = .ok true ∧ Inv (StoreG.set s k v).2 ∧
      (StoreG.set s k v).2.main_store = alInsert k v s.main_store := by
  obtain ⟨hs, ht, hr⟩ := h
  rw [set_mtree_eq]
  exact ⟨rfl, ⟨keySorted_alInsert hs, by rw [ht], by rw [ht]⟩, rfl⟩

theorem delGo_mtree (ks : List String) : ∀ (s : Store) (n : Nat), Inv s →
    (StoreG.delGo s ks n).1 = .ok ((delModel s.main_store ks).1 + n) ∧
    (StoreG.delGo s ks n).2.main_store = (delModel s.main_store ks).2 ∧
    Inv (StoreG.delGo s ks n).2 := by
  induction ks with
  | nil =>
    intro s n h
    refine ⟨?_, rfl, h⟩
    simp [StoreG.delGo, delModel]
  | cons k rest ih =>
    intro s n h
    obtain ⟨hs, ht, hr⟩ := h
    by_cases hc : containsKey k s.main_store = true
    · have hstep : StoreG.delGo s (k :: rest) n =
          StoreG.delGo
            { root := rootOf (alRemove k s.monotree),
              monotree := alRemove k s.monotree,
              main_store := alRemove k s.main_store } rest (n + 1) := by
        simp [StoreG.delGo, hc, mtree, sha256]
      have hinv' : Inv ({ root := rootOf (alRemove k s.monotree),
                          monotree := alRemove k s.monotree,
                          main_store := alRemove k s.main_store } : Store) :=
        ⟨keySorted_alRemove hs, by rw [ht], by rw [ht]⟩
      have hrec := ih _ (n + 1) hinv'
      have hms : ({ root := rootOf (alRemove k s.monotree),
                    monotree := alRemove k s.monotree,
                    main_store := alRemove k s.main_store } : Store).main_store =
          alRemove k s.main_store := rfl
      rw [hms] at hrec
      have hmodel : delModel s.main_store (k :: rest) =
          ((delModel (alRemove k s.main_store) rest).1 + 1,
           (delModel (alRemove k s.main_store) rest).2) := by
        simp [delModel, hc]
      rw [hstep, hmodel]
      refine ⟨?_, hrec.2.1, hrec.2.2⟩
      rw [hrec.1]
      exact congrArg Except.ok (by omega)
    · have hc' : containsKey k s.main_store = false := by
        cases hcc : containsKey k s.main_store
        · rfl
        · exact absurd hcc hc
      have hstep : StoreG.delGo s (k :: rest) n = StoreG.delGo s rest n := by
        simp [StoreG.delGo, hc']
      have hmodel : delModel s.main_store (k :: rest) = delModel s.main_store rest := by
        simp [delModel, hc']
      rw [hstep, hmodel]
      exact ih s n ⟨hs, ht, hr⟩

theorem rebuild_mtree (m : List (String × String)) (hm : keySorted m = true) :
    ∀ (rest t : List (String × String)),
      keySorted (t ++ rest) = true →
      (∀ e ∈ rest, alLookup e.1 m = some e.2) →
      StoreG.rebuild ({ root := rootOf t, monotree := t, main_store := m } : Store) rest =
        (.ok (), ({ root := rootOf (t ++ rest), monotree := t ++ rest,
                    main_store := m } : Store))
  | [], t, _, _ => by simp [StoreG.rebuild]
  | (k, v) :: rest, t, hsort, hmem => by
    have hlook : alLookup k m = some v := hmem (k, v) (by simp)
    have hpair := (keySorted_pairwise _).mp hsort
    have hall : ∀ e ∈ t, strLt e.1 k = true := by
      intro e he
      exact (List.pairwise_append.mp hpair).2.2 e he (k, v) (by simp)
    have htree : alInsert k v t = t ++ [(k, v)] := alInsert_append hall
    have hmap : alInsert k v m = m := alInsert_lookup_eq hm hlook
    have hset : StoreG.set ({ root := rootOf t, monotree := t, main_store := m } : Store) k v =
        (.ok true, ({ root := rootOf (t ++ [(k, v)]), monotree := t ++ [(k, v)],
                      main_store := m } : Store)) := by
      rw [set_mtree_eq]
      simp only [htree, hmap]
    have hstep : StoreG.rebuild ({ root := rootOf t, monotree := t, main_store := m } : Store)
        ((k, v) :: rest) =
        StoreG.rebuild ({ root := rootOf (t ++ [(k, v)]), monotree := t ++ [(k, v)],
                          main_store := m } : Store) rest := by
      simp [StoreG.rebuild, hset]
    rw [hstep]
    have hs2 : keySorted ((t ++ [(k, v)]) ++ rest) = true := by
      rw [List.append_assoc]
      simpa using hsort
    have hrec := rebuild_mtree m hm rest (t ++ [(k, v)]) hs2
      (fun e he => hmem e (List.mem_cons_of_mem _ he))
    rw [hrec]
    simp [List.append_assoc]

theorem update_full_store_mtree (s : Store) (m : List (String × String))
    (hm : keySorted m = true) :
    StoreG.update_full_store s m =
      (.ok (), { root := rootOf m, monotree := m, main_store := m }) := by
  have h := rebuild_mtree m hm m [] (by simpa using hm)
    (fun e he => by
      have hme : (e.1, e.2) ∈ m := by simpa using he
      exact mem_alLookup hm hme)
  simpa [StoreG.update_full_store, rootOf] using h

theorem reachable_inv : ∀ {s : Store}, Reachable s → Inv s := by
  intro s h
  induction h with
  | base => exact Inv_new
  | exec s cmd res s' _ heq ih =>
    cases cmd with
    | DEL keys =>
      have hd := delGo_mtree keys s 0 ih
      simp only [StoreG.execute] at heq
      have h2 := (Prod.mk.injEq _ _ _ _).mp heq
      rw [← h2.2]
      exact hd.2.2
    | EXISTS keys =>
      simp only [StoreG.execute] at heq
      have h2 := (Prod.mk.injEq _ _ _ _).mp heq
      rw [← h2.2]
      exact ih
    | GET key =>
      simp only [StoreG.execute] at heq
      have h2 := (Prod.mk.injEq _ _ _ _).mp heq
      rw [← h2.2]
      exact ih
    | KEYS pattern =>
      simp only [StoreG.execute] at heq
      have h2 := (Prod.mk.injEq _ _ _ _).mp heq
      rw [← h2.2]
      exact ih
    | SET key value =>
      have hst := Inv_set ih key value
      simp only [StoreG.execute] at heq
      have h2 := (Prod.mk.injEq _ _ _ _).mp heq
      rw [← h2.2]
      exact hst.2.1
  | update s m s' _ hm heq ih =>
    rw [update_full_store_mtree s m hm] at heq
    have h2 := (Prod.mk.injEq _ _ _ _).mp heq
    rw [← h2.2]
    exact ⟨hm, rfl, rfl⟩

/-! ## Claim theorems -/

/-- C1: the claim says an erroring `execute` leaves no observable mutation
(the map mutation rolled back on a tree failure).  The code mutates the flat
map before the fallible tree operation and propagates the error without any
rollback: under a tree backend that rejects (as the `monotree` interface and
spec §7's `Store.Tree` error kind allow), a failing `SET` on the empty store
leaves the new binding in the map, and a failing `DEL` leaves the key already
removed. -/
theorem c1_tree_error_leaves_map_mutated :
    ((StoreG.execute (StoreG.new failTree) (.SET "k" "v")).1 =
        .error (StoreError.MonotreeError "tree failure") ∧
      (StoreG.execute (StoreG.new failTree) (.SET "k" "v")).2.main_store = [("k", "v")]) ∧
    ((StoreG.execute ({ root := some [("k", "v")],
                        monotree := (),
                        main_store := [("k", "v")] } : StoreG failTree) (.DEL ["k"])).1 =
        .error (StoreError.MonotreeError "tree failure") ∧
      (StoreG.execute ({ root := some [("k", "v")],
                         monotree := (),
                         main_store := [("k", "v")] } : StoreG failTree) (.DEL ["k"])).2.main_store = []) :=
  ⟨⟨rfl, rfl⟩, rfl, rfl⟩

/-- C2: for every reachable store, `update_full_store(get_main_store())`
succeeds and `reveal_root()` afterwards equals the root from before the
call. -/
theorem c2_update_full_store_roundtrip (s : Store) (h : Reachable s) :
    (StoreG.update_full_store s (StoreG.get_main_store s)).1 = .ok () ∧
    (StoreG.update_full_store s (StoreG.get_main_store s)).2.reveal_root =
      s.reveal_root := by
  obtain ⟨hs, ht, hr⟩ := reachable_inv h
  rw [StoreG.get_main_store, update_full_store_mtree s s.main_store hs]
  exact ⟨rfl, by simp [StoreG.reveal_root, hr]⟩

/-- Witness for C2 at the store reached by `SET "a" "b"` from empty. -/
theorem c2_witness :
    (StoreG.update_full_store (StoreG.execute Store.new (.SET "a" "b")).2
        (StoreG.get_main_store (StoreG.execute Store.new (.SET "a" "b")).2)).1 = .ok () ∧
    (StoreG.update_full_store (StoreG.execute Store.new (.SET "a" "b")).2
        (StoreG.get_main_store (StoreG.execute Store.new (.SET "a" "b")).2)).2.reveal_root =
      (StoreG.execute Store.new (.SET "a" "b")).2.reveal_root :=
  c2_update_full_store_roundtrip _
    (Reachable.exec Store.new (.SET "a" "b") (.SET true) _ Reachable.base rfl)

/-- C3: for reachable stores, equal flat maps force equal roots — the root is
a function of the current map contents, independent of the operation order
that produced them. -/
theorem c3_root_determined_by_map (a b : Store) (ha : Reachable a) (hb : Reachable b)
    (hm : StoreG.get_main_store a = StoreG.get_main_store b) :
    StoreG.reveal_root a = StoreG.reveal_root b := by
  obtain ⟨-, -, hra⟩ := reachable_inv ha
  obtain ⟨-, -, hrb⟩ := reachable_inv hb
  rw [StoreG.get_main_store, StoreG.get_main_store] at hm
  rw [StoreG.reveal_root, StoreG.reveal_root, hra, hrb, hm]

/-- Witness for C3: `SET "a" "1"; SET "b" "2"` and `SET "b" "2"; SET "a" "1"`
give the same map, hence the same root. -/
theorem c3_witness :
    StoreG.reveal_root
        (StoreG.execute (StoreG.execute Store.new (.SET "a" "1")).2 (.SET "b" "2")).2 =
      StoreG.reveal_root
        (StoreG.execute (StoreG.execute Store.new (.SET "b" "2")).2 (.SET "a" "1")).2 :=
  c3_root_determined_by_map _ _
    (Reachable.exec _ (.SET "b" "2") (.SET true) _
      (Reachable.exec Store.new (.SET "a" "1") (.SET true) _ Reachable.base rfl) rfl)
    (Reachable.exec _ (.SET "a" "1") (.SET true) _
      (Reachable.exec Store.new (.SET "b" "2") (.SET true) _ Reachable.base rfl) rfl)
    rfl

/-- C7: `EXISTS` counts the supplied keys present in the flat map, one count
per list entry, so a present key occurring `n` times contributes `n`. -/
theorem c7_exists_counts_occurrences (s : Store) (ks : List String) (k : String)
    (h : containsKey k s.main_store = true) :
    (StoreG.execute s (.EXISTS ks)).1 =
      .ok (.EXISTS (ks.countP (fun x => containsKey x s.main_store))) ∧
    (StoreG.execute s (.EXISTS ks)).2 = s ∧
    ∀ n, StoreG.existsCount s (List.replicate n k) = n := by
  refine ⟨?_, rfl, ?_⟩
  · simp [StoreG.execute, StoreG.existsCount, List.countP_eq_length_filter]
  · intro n
    induction n with
    | zero => rfl
    | succ n ihn =>
      simp only [StoreG.existsCount, List.replicate_succ, List.filter_cons, h,
        if_true, List.length_cons] at ihn ⊢
      rw [ihn]

/-- Witness for C7: in the store holding key `"a"`, `EXISTS` on the list
`["a", "a"]` counts 2. -/
theorem c7_witness :
    containsKey "a" (StoreG.execute Store.new (.SET "a" "b")).2.main_store = true ∧
    StoreG.existsCount (StoreG.execute Store.new (.SET "a" "b")).2
      (List.replicate 2 "a") = 2 :=
  ⟨rfl, (c7_exists_counts_occurrences (StoreG.execute Store.new (.SET "a" "b")).2
    ["x"] "a" rfl).2.2 2⟩

/-- C8: `DEL` processes the keys in order (the recursion `delModel`), removes
each present key from map and tree (the invariant is preserved), skips absent
keys, returns the number actually removed, a duplicated key counts at most
once, and when the map empties the root becomes `none`. -/
theorem c8_del_semantics (s : Store) (h : Reachable s) (ks : List String) :
    (StoreG.execute s (.DEL ks)).1 = .ok (.DEL (delModel s.main_store ks).1) ∧
    (StoreG.execute s (.DEL ks)).2.main_store = (delModel s.main_store ks).2 ∧
    Inv (StoreG.execute s (.DEL ks)).2 ∧
    ((StoreG.execute s (.DEL ks)).2.main_store = [] →
      (StoreG.execute s (.DEL ks)).2.reveal_root = none) ∧
    (∀ m k, keySorted m = true → delModel m [k, k] = delModel m [k]) := by
  have hI := reachable_inv h
  have hd := delGo_mtree ks s 0 hI
  have he1 : (StoreG.execute s (.DEL ks)).1 =
      (StoreG.delGo s ks 0).1.map StoreCommandResult.DEL := rfl
  have he2 : (StoreG.execute s (.DEL ks)).2 = (StoreG.delGo s ks 0).2 := rfl
  refine ⟨?_, ?_, ?_, ?_, ?_⟩
  · rw [he1, hd.1]
    rfl
  · rw [he2, hd.2.1]
  · rw [he2]
    exact hd.2.2
  · intro hnil
    rw [he2] at hnil ⊢
    obtain ⟨-, -, hr⟩ := hd.2.2
    rw [StoreG.reveal_root, hr, hnil]
    rfl
  · intro m k hm
    by_cases hc : containsKey k m = true
    · have hc2 : containsKey k (alRemove k m) = false := by
        rw [containsKey, alLookup_alRemove_self hm]
        rfl
      simp [delModel, hc, hc2]
    · have hc' : containsKey k m = false := by
        cases hcc : containsKey k m
        · rfl
        · exact absurd hcc hc
      simp [delModel, hc']

/-- Witness for C8: deleting `["a", "a"]` from the store holding only `"a"`
removes once, counts once and leaves root `none`. -/
theorem c8_witness :
    (StoreG.execute (StoreG.execute Store.new (.SET "a" "b")).2 (.DEL ["a", "a"])).1 =
      .ok (.DEL 1) ∧
    (StoreG.execute (StoreG.execute Store.new (.SET "a" "b")).2
        (.DEL ["a", "a"])).2.reveal_root = none := by
  have h := c8_del_semantics (StoreG.execute Store.new (.SET "a" "b")).2
    (Reachable.exec Store.new (.SET "a" "b") (.SET true) _ Reachable.base rfl)
    ["a", "a"]
  exact ⟨by rw [h.1]; rfl, h.2.2.2.1 (by rw [h.2.1]; rfl)⟩

/-- C9: `KEYS "*"` returns all keys; any other pattern has every `*` replaced
by `.*` and is matched, anchored, against each full key, yielding exactly the
matching keys; a pattern whose compiled regex is invalid makes `execute`
return `StoreError::RegexError`. -/
theorem c9_keys_semantics (s : Store) (p : String) (hp : p ≠ "*") :
    (StoreG.execute s (.KEYS "*")).1 = .ok (.KEYS (s.main_store.map Prod.fst)) ∧
    (StoreG.execute s (.KEYS p)).2 = s ∧
    (∀ e, rxCompile (replaceStar p) = .error e →
      (StoreG.execute s (.KEYS p)).1 = .error (StoreError.RegexError e)) ∧
    (∀ re, rxCompile (replaceStar p) = .ok re →
      ∃ l, (StoreG.execute s (.KEYS p)).1 = .ok (.KEYS l) ∧
        ∀ k, k ∈ l ↔ k ∈ s.main_store.map Prod.fst ∧ re.matchFull k = true) := by
  refine ⟨?_, rfl, ?_, ?_⟩
  · simp [StoreG.execute, StoreG.keys, Except.map]
  · intro e he
    simp [StoreG.execute, StoreG.keys, Except.map, hp, he]
  · intro re hre
    refine ⟨(s.main_store.map Prod.fst).filter (fun k => re.matchFull k), ?_, ?_⟩
    · simp [StoreG.execute, StoreG.keys, Except.map, hp, hre]
    · intro k
      simp [List.mem_filter]

/-- Witness for C9: the pattern `"("` (no `*` at all) compiles to an invalid
regex and `execute` returns `RegexError`. -/
theorem c9_witness :
    (StoreG.execute Store.new (.KEYS "(")).1 =
      .error (StoreError.RegexError "unclosed group") := by
  have h := c9_keys_semantics Store.new "(" (by decide)
  exact h.2.2.1 "unclosed group" rfl

/-! ## MajorityTracker lemmas -/

theorem hmLookup_hmInsert_self (p : String) (v : Signature) :
    ∀ h : List (String × Signature), hmLookup p (hmInsert p v h) = some v
  | [] => by simp [hmInsert, hmLookup]
  | (q, w) :: t => by
    by_cases he : p = q
    · simp [hmInsert, hmLookup, he]
    · simp [hmInsert, hmLookup, he, hmLookup_hmInsert_self p v t]

theorem hmLookup_hmInsert_other {p q : String} (hne : q ≠ p) (v : Signature) :
    ∀ h : List (String × Signature), hmLookup q (hmInsert p v h) = hmLookup q h
  | [] => by simp [hmInsert, hmLookup, hne]
  | (r, w) :: t => by
    by_cases he : p = r
    · subst he
      simp [hmInsert, hmLookup, hne]
    · by_cases hq : q = r
      · simp [hmInsert, hmLookup, he, hq]
      · simp [hmInsert, hmLookup, he, hq, hmLookup_hmInsert_other hne v t]

theorem update_signature_step (t : MajorityTracker) (q : String) (sg : Signature)
    (p : String) (old : Signature) (h : hmLookup p t.history = some old) :
    ∃ cur, hmLookup p (t.update_signature q sg).history = some cur ∧
      old.local_timestamp ≤ cur.local_timestamp := by
  by_cases hpq : q = p
  · subst hpq
    simp only [MajorityTracker.update_signature, h]
    by_cases hts : old.local_timestamp < sg.local_timestamp
    · exact ⟨sg, by simp [hts, hmLookup_hmInsert_self], Nat.le_of_lt hts⟩
    · exact ⟨old, by simp [hts, h], Nat.le_refl _⟩
  · have hne : p ≠ q := fun he => hpq he.symm
    simp only [MajorityTracker.update_signature]
    cases hq : hmLookup q t.history with
    | none =>
      exact ⟨old, by simpa [hmLookup_hmInsert_other hne sg t.history] using h,
        Nat.le_refl _⟩
    | some o2 =>
      by_cases hts : o2.local_timestamp < sg.local_timestamp
      · exact ⟨old, by simpa [hts, hmLookup_hmInsert_other hne sg t.history] using h,
          Nat.le_refl _⟩
      · exact ⟨old, by simpa [hts] using h, Nat.le_refl _⟩

/-- C5: `update_signature` inserts when the peer is new; with a prior entry it
replaces exactly when the new timestamp is strictly greater, otherwise the
stored signature is unchanged; hence over any sequence of updates the stored
timestamp of a peer never decreases. -/
theorem c5_update_signature_timestamps (t : MajorityTracker) (p : String) (sig : Signature) :
    (hmLookup p t.history = none →
      (t.update_signature p sig).history = hmInsert p sig t.history ∧
      hmLookup p (t.update_signature p sig).history = some sig) ∧
    (∀ old, hmLookup p t.history = some old →
      (t.update_signature p sig).history =
        (if old.local_timestamp < sig.local_timestamp then hmInsert p sig t.history
         else t.history) ∧
      hmLookup p (t.update_signature p sig).history =
        some (if old.local_timestamp < sig.local_timestamp then sig else old)) ∧
    (∀ us old, hmLookup p t.history = some old →
      ∃ cur, hmLookup p (applyUpdates t us).history = some cur ∧
        old.local_timestamp ≤ cur.local_timestamp) := by
  refine ⟨?_, ?_, ?_⟩
  · intro h
    constructor
    · simp [MajorityTracker.update_signature, h]
    · simp [MajorityTracker.update_signature, h, hmLookup_hmInsert_self]
  · intro old h
    by_cases hts : old.local_timestamp < sig.local_timestamp
    · constructor <;>
        simp [MajorityTracker.update_signature, h, hts, hmLookup_hmInsert_self]
    · constructor <;> simp [MajorityTracker.update_signature, h, hts]
  · intro us
    induction us generalizing t with
    | nil => intro old h; exact ⟨old, h, Nat.le_refl _⟩
    | cons e rest ih =>
      intro old h
      obtain ⟨q, sg⟩ := e
      obtain ⟨mid, hmid, hle⟩ := update_signature_step t q sg p old h
      obtain ⟨cur, hcur, hle2⟩ := ih (t.update_signature q sg) mid hmid
      exact ⟨cur, by simpa [applyUpdates] using hcur, Nat.le_trans hle hle2⟩

/-- Witness for C5: updating peer `"p1"` (stored timestamp 200) with an older
signature (timestamp 100) leaves the stored signature unchanged. -/
theorem c5_witness :
    hmLookup "p1" ((MajorityTracker.update_signature ⟨[("p1", ⟨some [("k", "v")], 200⟩)]⟩
        "p1" ⟨none, 100⟩).history) =
      some (if (200 : Nat) < 100 then ⟨none, 100⟩ else ⟨some [("k", "v")], 200⟩) :=
  ((c5_update_signature_timestamps ⟨[("p1", ⟨some [("k", "v")], 200⟩)]⟩ "p1"
      ⟨none, 100⟩).2.1 ⟨some [("k", "v")], 200⟩ rfl).2

theorem freqCount_bumpFreq (r r' : Root) :
    ∀ fs : List (Root × Nat),
      freqCount r (bumpFreq r' fs) =
        if r = r' then freqCount r fs + 1 else freqCount r fs
  | [] => by by_cases h : r = r' <;> simp [bumpFreq, freqCount, h]
  | (r₀, n) :: t => by
    by_cases h0 : r' = r₀
    · subst h0
      by_cases h : r = r'
      · subst h
        simp [bumpFreq, freqCount]
      · simp [bumpFreq, freqCount, h]
    · by_cases h : r = r₀
      · subst h
        have hne : r ≠ r' := fun he => h0 he.symm
        simp [bumpFreq, freqCount, h0, hne]
      · simp [bumpFreq, freqCount, h0, h, freqCount_bumpFreq r r' t]

theorem freqCount_rootFreqs (r : Root) :
    ∀ h : List (String × Signature), freqCount r (rootFreqs h) = countRoot r h
  | [] => rfl
  | e :: t => by
    cases he : e.2.root with
    | some r₀ =>
      by_cases h : r = r₀
      · subst h
        simp [rootFreqs, he, freqCount_bumpFreq, countRoot, List.filter_cons,
          freqCount_rootFreqs r t]
      · have hne : ¬ (r₀ = r) := fun hh => h hh.symm
        simp [rootFreqs, he, freqCount_bumpFreq, countRoot, List.filter_cons, h, hne,
          freqCount_rootFreqs r t]
    | none =>
      simp [rootFreqs, he, countRoot, List.filter_cons, freqCount_rootFreqs r t]

theorem maxByCount_eq_none : ∀ fs : List (Root × Nat), maxByCount fs = none ↔ fs = []
  | [] => by simp [maxByCount]
  | (r, n) :: t => by
    simp only [maxByCount]
    cases maxByCount t with
    | none => simp
    | some q => by_cases h : n ≤ q.2 <;> simp [h]

theorem maxByCount_mem :
    ∀ (fs : List (Root × Nat)) (r : Root) (n : Nat),
      maxByCount fs = some (r, n) → (r, n) ∈ fs
  | [], r, n, h => by simp [maxByCount] at h
  | (r₀, n₀) :: t, r, n, h => by
    cases hm : maxByCount t with
    | none =>
      simp only [maxByCount, hm] at h
      injection h with h2
      rw [← h2]
      exact List.mem_cons_self _ _
    | some q =>
      obtain ⟨r', n'⟩ := q
      simp only [maxByCount, hm] at h
      by_cases hle : n₀ ≤ n'
      · rw [if_pos hle] at h
        injection h with h2
        rw [← h2]
        exact List.mem_cons_of_mem _ (maxByCount_mem t r' n' hm)
      · rw [if_neg hle] at h
        injection h with h2
        rw [← h2]
        exact List.mem_cons_self _ _

theorem maxByCount_max :
    ∀ (fs : List (Root × Nat)) (r : Root) (n : Nat),
      maxByCount fs = some (r, n) → ∀ p ∈ fs, p.2 ≤ n
  | [], r, n, h => by simp [maxByCount] at h
  | (r₀, n₀) :: t, r, n, h => by
    cases hm : maxByCount t with
    | none =>
      simp only [maxByCount, hm] at h
      injection h with h2
      have ht : t = [] := (maxByCount_eq_none t).mp hm
      subst ht
      intro p hp
      rw [List.mem_singleton] at hp
      subst hp
      rw [(Prod.mk.injEq _ _ _ _).mp h2 |>.2]
    | some q =>
      obtain ⟨r', n'⟩ := q
      have hrec := maxByCount_max t r' n' hm
      simp only [maxByCount, hm] at h
      by_cases hle : n₀ ≤ n'
      · rw [if_pos hle] at h
        injection h with h2
        have hn : n = n' := ((Prod.mk.injEq _ _ _ _).mp h2).2.symm
        subst hn
        intro p hp
        rcases List.mem_cons.mp hp with rfl | hp'
        · exact hle
        · exact hrec p hp'
      · rw [if_neg hle] at h
        injection h with h2
        have hn : n = n₀ := ((Prod.mk.injEq _ _ _ _).mp h2).2.symm
        subst hn
        intro p hp
        rcases List.mem_cons.mp hp with rfl | hp'
        · exact Nat.le_refl _
        · exact Nat.le_trans (hrec p hp') (Nat.le_of_not_le hle)

theorem bumpFreq_ne_nil (r : Root) : ∀ fs : List (Root × Nat), bumpFreq r fs ≠ []
  | [] => by simp [bumpFreq]
  | (r₀, n) :: t => by by_cases h : r = r₀ <;> simp [bumpFreq, h]

theorem rootFreqs_nil_iff :
    ∀ h : List (String × Signature),
      rootFreqs h = [] ↔ ∀ e ∈ h, e.2.root = none
  | [] => by simp [rootFreqs]
  | e :: t => by
    cases he : e.2.root with
    | some r₀ =>
      simp only [rootFreqs, he]
      constructor
      · intro hb
        exact absurd hb (bumpFreq_ne_nil _ _)
      · intro hall
        have := hall e (List.mem_cons_self _ _)
        rw [he] at this
        exact absurd this (by simp)
    | none =>
      simp [rootFreqs, he, rootFreqs_nil_iff t, List.forall_mem_cons]

theorem bumpFreq_map_fst (r : Root) :
    ∀ fs : List (Root × Nat),
      (bumpFreq r fs).map Prod.fst =
        if r ∈ fs.map Prod.fst then fs.map Prod.fst else fs.map Prod.fst ++ [r]
  | [] => by simp [bumpFreq]
  | (r₀, n) :: t => by
    by_cases h : r = r₀
    · subst h
      simp [bumpFreq]
    · have ih := bumpFreq_map_fst r t
      by_cases hm : r ∈ t.map Prod.fst
      · simp only [bumpFreq, if_neg h, List.map_cons]
        rw [ih, if_pos hm, if_pos (List.mem_cons_of_mem _ hm)]
      · simp only [bumpFreq, if_neg h, List.map_cons]
        have hh : r ∉ (r₀ :: t.map Prod.fst) := by
          intro hc
          rcases List.mem_cons.mp hc with hc | hc
          · exact h hc
          · exact hm hc
        rw [ih, if_neg hm, if_neg hh]
        rfl

theorem rootFreqs_keys_nodup :
    ∀ h : List (String × Signature), ((rootFreqs h).map Prod.fst).Nodup
  | [] => by simp [rootFreqs]
  | e :: t => by
    cases he : e.2.root with
    | some r₀ =>
      simp only [rootFreqs, he]
      rw [bumpFreq_map_fst]
      by_cases hm : r₀ ∈ (rootFreqs t).map Prod.fst
      · simpa [hm] using rootFreqs_keys_nodup t
      · simp only [hm, if_neg, ite_false]
        rw [List.nodup_append]
        exact ⟨rootFreqs_keys_nodup t, List.nodup_singleton _,
          by simpa [List.disjoint_singleton] using hm⟩
    | none =>
      simpa [rootFreqs, he] using rootFreqs_keys_nodup t

theorem freqCount_eq_of_mem_nodup (r : Root) (n : Nat) :
    ∀ fs : List (Root × Nat), (fs.map Prod.fst).Nodup → (r, n) ∈ fs →
      freqCount r fs = n
  | [], _, hm => by simp at hm
  | (r₀, n₀) :: t, hnd, hm => by
    by_cases h : r = r₀
    · subst h
      rcases List.mem_cons.mp hm with he | hm'
      · have := ((Prod.mk.injEq _ _ _ _).mp he).2
        simp [freqCount, this]
      · have : r ∈ t.map Prod.fst :=
          List.mem_map.mpr ⟨(r, n), hm', rfl⟩
        rw [List.map_cons, List.nodup_cons] at hnd
        exact absurd this hnd.1
    · rcases List.mem_cons.mp hm with he | hm'
      · exact absurd ((Prod.mk.injEq _ _ _ _).mp he).1 h
      · rw [List.map_cons, List.nodup_cons] at hnd
        simp only [freqCount, if_neg h]
        exact freqCount_eq_of_mem_nodup r n t hnd.2 hm'

theorem bumpFreq_pos (r : Root) :
    ∀ fs : List (Root × Nat), (∀ p ∈ fs, 0 < p.2) → ∀ p ∈ bumpFreq r fs, 0 < p.2
  | [], _, p, hp => by
    rw [bumpFreq, List.mem_singleton] at hp
    subst hp
    exact Nat.zero_lt_one
  | (r₀, n) :: t, hall, p, hp => by
    by_cases h : r = r₀
    · rw [bumpFreq, if_pos h] at hp
      rcases List.mem_cons.mp hp with rfl | hp'
      · exact Nat.succ_pos n
      · exact hall p (List.mem_cons_of_mem _ hp')
    · rw [bumpFreq, if_neg h] at hp
      rcases List.mem_cons.mp hp with rfl | hp'
      · exact hall _ (List.mem_cons_self _ _)
      · exact bumpFreq_pos r t (fun q hq => hall q (List.mem_cons_of_mem _ hq)) p hp'

theorem rootFreqs_pos :
    ∀ (h : List (String × Signature)) (p : Root × Nat), p ∈ rootFreqs h → 0 < p.2
  | [], p, hp => by simp [rootFreqs] at hp
  | e :: t, p, hp => by
    cases he : e.2.root with
    | some r₀ =>
      rw [rootFreqs, he] at hp
      exact bumpFreq_pos r₀ (rootFreqs t) (fun q hq => rootFreqs_pos t q hq) p hp
    | none =>
      rw [rootFreqs, he] at hp
      exact rootFreqs_pos t p hp

theorem freqCount_mem (r : Root) :
    ∀ fs : List (Root × Nat), freqCount r fs ≠ 0 → (r, freqCount r fs) ∈ fs
  | [], h => absurd rfl h
  | (r₀, n) :: t, h => by
    by_cases he : r = r₀
    · subst he
      simp [freqCount]
    · rw [freqCount, if_neg he] at h ⊢
      exact List.mem_cons_of_mem _ (freqCount_mem r t h)

theorem countRoot_pos {r : Root} {h : List (String × Signature)}
    (hp : 0 < countRoot r h) : ∃ e ∈ h, e.2.root = some r := by
  rw [countRoot] at hp
  obtain ⟨e, he⟩ := List.exists_mem_of_length_pos hp
  have := List.mem_filter.mp he
  exact ⟨e, this.1, by simpa using this.2⟩

/-- C4: `truthful_majority()` is `none` exactly when every stored signature's
root is `none` (in particular on the empty tracker); otherwise it returns the
non-empty list of exactly those peers whose latest signature's root is a root
of maximal frequency among the non-`none` roots. -/
theorem c4_truthful_majority (t : MajorityTracker) :
    (t.truthful_majority = none ↔ ∀ e ∈ t.history, e.2.root = none) ∧
    (∀ l, t.truthful_majority = some l →
      l ≠ [] ∧
      ∃ mc, (∀ r, countRoot r t.history ≤ countRoot mc t.history) ∧
        0 < countRoot mc t.history ∧
        l = (t.history.filter (fun e => e.2.root = some mc)).map Prod.fst) := by
  have hnone : t.most_common_root = none ↔ ∀ e ∈ t.history, e.2.root = none := by
    rw [MajorityTracker.most_common_root, Option.map_eq_none', maxByCount_eq_none,
      rootFreqs_nil_iff]
  constructor
  · cases hmc : t.most_common_root with
    | none =>
      constructor
      · intro _
        exact hnone.mp hmc
      · intro _
        simp [MajorityTracker.truthful_majority, hmc]
    | some mc =>
      constructor
      · intro hc
        simp [MajorityTracker.truthful_majority, hmc] at hc
      · intro hall
        have hcon := hnone.mpr hall
        rw [hmc] at hcon
        exact absurd hcon (by simp)
  · intro l hl
    cases hmc : t.most_common_root with
    | none =>
      simp only [MajorityTracker.truthful_majority, hmc] at hl
      exact absurd hl (by simp)
    | some mc =>
      simp only [MajorityTracker.truthful_majority, hmc] at hl
      injection hl with hl
      rw [MajorityTracker.most_common_root] at hmc
      obtain ⟨a, hmax, hfst⟩ := Option.map_eq_some'.mp hmc
      obtain ⟨mc', n⟩ := a
      have hmceq : mc' = mc := hfst
      subst hmceq
      have hnodup := rootFreqs_keys_nodup t.history
      have hmem := maxByCount_mem _ _ _ hmax
      have hn : freqCount mc' (rootFreqs t.history) = n :=
        freqCount_eq_of_mem_nodup mc' n _ hnodup hmem
      have hcnt : countRoot mc' t.history = n := by
        rw [← freqCount_rootFreqs, hn]
      have hpos : 0 < n := rootFreqs_pos _ _ hmem
      refine ⟨?_, mc', ?_, ?_, hl.symm⟩
      · obtain ⟨e, he, hre⟩ := countRoot_pos (hcnt ▸ hpos)
        rw [← hl]
        have hef : e ∈ t.history.filter (fun x => x.2.root = some mc') :=
          List.mem_filter.mpr ⟨he, by simp [hre]⟩
        exact List.ne_nil_of_mem (List.mem_map_of_mem Prod.fst hef)
      · intro r
        rw [← freqCount_rootFreqs, hcnt]
        by_cases hz : freqCount r (rootFreqs t.history) = 0
        · rw [hz]
          exact Nat.zero_le _
        · exact maxByCount_max _ _ _ hmax _ (freqCount_mem r _ hz)
      · rw [hcnt]
        exact hpos

/-- Witness for C4: a tracker with one voting root and one `none` signature
yields the singleton majority; a tracker whose only signature has root `none`
yields `none`. -/
theorem c4_witness :
    (MajorityTracker.truthful_majority
        ⟨[("p1", ⟨some [("k", "v")], 1⟩), ("p2", ⟨none, 2⟩)]⟩ = some ["p1"]) ∧
    (["p1"] ≠ ([] : List String)) ∧
    (MajorityTracker.truthful_majority ⟨[("p3", ⟨none, 7⟩)]⟩ = none) :=
  ⟨rfl,
   ((c4_truthful_majority ⟨[("p1", ⟨some [("k", "v")], 1⟩), ("p2", ⟨none, 2⟩)]⟩).2
     ["p1"] rfl).1,
   (c4_truthful_majority ⟨[("p3", ⟨none, 7⟩)]⟩).1.mpr (by simp)⟩

/-- Shape of the `ShareSignature` handler: the tracker is updated first, and
the broadcasts are one `RepairRequest` per majority peer exactly when the
local root differs from the incoming one and a majority exists. -/
theorem handleShareSignature_eq (n : Node) (src_id : String) (sgn : Signature) :
    n.handleShareSignature src_id sgn =
      ({ n with tracker := n.tracker.update_signature src_id sgn },
       if n.storage.reveal_root ≠ sgn.root then
         match (n.tracker.update_signature src_id sgn).truthful_majority with
         | some majority => majority.map (fun peer_id => ⟨n.peer_id, peer_id⟩)
         | none => []
       else []) := by
  rw [Node.handleShareSignature]
  by_cases hroot : n.storage.reveal_root ≠ sgn.root
  · simp only [if_pos hroot]
    cases (n.tracker.update_signature src_id sgn).truthful_majority <;> rfl
  · simp only [if_neg hroot]

/-- C6: handling `ShareSignature{src_id, sig}` first updates the tracker with
`(src_id, sig)`; it broadcasts exactly one `RepairRequest{src_id = self,
dst_id = peer}` per peer of `truthful_majority()` iff the local root differs
from `sig.root` and the majority exists, and broadcasts nothing when the
roots agree or the majority is `none`.  The store is untouched. -/
theorem c6_share_signature_repairs (n : Node) (src_id : String) (sgn : Signature) :
    (n.handleShareSignature src_id sgn).1.tracker =
      n.tracker.update_signature src_id sgn ∧
    (n.handleShareSignature src_id sgn).1.storage = n.storage ∧
    (n.handleShareSignature src_id sgn).1.peer_id = n.peer_id ∧
    (∀ l, n.storage.reveal_root ≠ sgn.root →
      (n.tracker.update_signature src_id sgn).truthful_majority = some l →
      (n.handleShareSignature src_id sgn).2 =
        l.map (fun peer_id => ⟨n.peer_id, peer_id⟩)) ∧
    (n.storage.reveal_root = sgn.root → (n.handleShareSignature src_id sgn).2 = []) ∧
    ((n.tracker.update_signature src_id sgn).truthful_majority = none →
      (n.handleShareSignature src_id sgn).2 = []) := by
  rw [handleShareSignature_eq]
  refine ⟨rfl, rfl, rfl, ?_, ?_, ?_⟩
  · intro l hne hmaj
    simp [if_pos hne, hmaj]
  · intro heq
    simp [heq]
  · intro hmaj
    by_cases hne : n.storage.reveal_root ≠ sgn.root
    · simp [if_pos hne, hmaj]
    · simp [if_neg hne]

/-- Witness for C6: an empty node receiving a signature with a fresh root
broadcasts exactly one repair request, addressed to the sender. -/
theorem c6_witness :
    (Node.handleShareSignature ⟨"me", Store.new, MajorityTracker.new⟩ "p1"
        ⟨some [("k", "v")], 5⟩).2 = [⟨"me", "p1"⟩] := by
  have h := c6_share_signature_repairs ⟨"me", Store.new, MajorityTracker.new⟩ "p1"
    ⟨some [("k", "v")], 5⟩
  rw [h.2.2.2.1 ["p1"] (fun hc => nomatch hc) rfl]
  rfl

/-- C10: regex metacharacters in a `KEYS` pattern are live: on the store
holding key `"abc"`, the pattern `"a.c"` (which does not occur in the key)
matches it, and the pattern `"("` yields a `RegexError` although it contains
no `*`. -/
theorem c10_regex_metachars_live :
    (StoreG.execute (StoreG.execute Store.new (.SET "abc" "v")).2 (.KEYS "a.c")).1 =
      .ok (.KEYS ["abc"]) ∧
    (StoreG.execute (StoreG.execute Store.new (.SET "abc" "v")).2 (.KEYS "(")).1 =
      .error (StoreError.RegexError "unclosed group") :=
  ⟨rfl, rfl⟩

end Difiew
